import Mathlib

/-!
Shallow embedding of the core of the ml-factor-sp500 repository
(src/model.py and src/backtest.py) and verification of the frozen claims
about it.

Modelling conventions, chosen once and used throughout:

* Real-valued market data is modelled with the rational numbers; the
  floating-point rounding of the Python implementation is not modelled,
  but the exceptional float values that the pandas/numpy code can
  produce (NaN from missing data, 0/0, or an undefined sample standard
  deviation) are modelled explicitly with Option (none = NaN).
* Dates are modelled as integers.  For the walk-forward splitter they
  are month serial numbers: every rebalance date is one calendar month
  after its predecessor, so pd.DateOffset(years=y) is a shift by 12*y
  and pd.DateOffset(months=m) a shift by m.  Calendar day-of-month
  effects of DateOffset are not modelled; no claim depends on them.
* Tickers are opaque labels and are modelled as natural numbers.
* A raised exception is modelled as the value none of an Option result.
-/

namespace MLF

/-- Insertion step of an ascending insertion sort. -/
def insertAsc {α : Type} [LinearOrder α] (x : α) : List α → List α
  | [] => [x]
  | y :: ys => if x ≤ y then x :: y :: ys else y :: insertAsc x ys

/-- Ascending sort, modelling pandas sort_values / sort_index. -/
def sortAsc {α : Type} [LinearOrder α] (l : List α) : List α :=
  l.foldr insertAsc []

/-- pandas Series.quantile with the default linear interpolation:
for q in [0,1] and the values sorted ascending, with h = q*(n-1) and
lo = floor h, the result is ys[lo] + (h - lo) * (ys[lo+1] - ys[lo]).
The source only evaluates quantiles of nonempty cross-sections, so the
empty case (NaN in pandas) is mapped to 0. -/
def quantile (xs : List ℚ) (q : ℚ) : ℚ :=
  let ys := sortAsc xs
  let n := ys.length
  if n = 0 then 0
  else
    let h : ℚ := q * ((n : ℚ) - 1)
    let lo : ℕ := (Int.floor h).toNat
    let frac : ℚ := h - (lo : ℚ)
    let a := ys.getD lo 0
    let b := ys.getD (lo + 1) a
    a + frac * (b - a)

/-- The long-leg threshold of generate_monthly_positions:
long_cut = s.quantile(1 - top_q), for the score cross-section s. -/
def longCut (s : List (ℕ × ℚ)) (top_q : ℚ) : ℚ :=
  quantile (s.map (fun p => p.2)) (1 - top_q)

/-- The short-leg threshold: short_cut = s.quantile(bot_q). -/
def shortCut (s : List (ℕ × ℚ)) (bot_q : ℚ) : ℚ :=
  quantile (s.map (fun p => p.2)) bot_q

/-- len(longs): the number of scores with long_cut <= score. -/
def numLongs (s : List (ℕ × ℚ)) (top_q : ℚ) : ℕ :=
  ((s.map (fun p => p.2)).filter (fun x => decide (longCut s top_q ≤ x))).length

/-- len(shorts): the number of scores with score <= short_cut. -/
def numShorts (s : List (ℕ × ℚ)) (bot_q : ℚ) : ℕ :=
  ((s.map (fun p => p.2)).filter (fun x => decide (x ≤ shortCut s bot_q))).length

/-- The weight vector built from a score cross-section s by
generate_monthly_positions:
w starts at 0, then w.loc[longs] = 1/len(longs), then
w.loc[shorts] = -1/len(shorts).  Because the short-leg assignment runs
last, a ticker in both legs ends with the short weight.  A branch is
taken only when the corresponding leg is nonempty, so the divisions are
by nonzero counts whenever they are reached. -/
def buildWeights (s : List (ℕ × ℚ)) (top_q bot_q : ℚ) : List (ℕ × ℚ) :=
  s.map (fun p =>
    (p.1,
      if p.2 ≤ shortCut s bot_q then -1 / (numShorts s bot_q : ℚ)
      else if longCut s top_q ≤ p.2 then 1 / (numLongs s top_q : ℚ)
      else 0))

/-- The weights of a built weight vector, in cross-section order. -/
def weightsOf (s : List (ℕ × ℚ)) (top_q bot_q : ℚ) : List ℚ :=
  (buildWeights s top_q bot_q).map (fun p => p.2)

/-- Sum of the positive entries of the built weight vector. -/
def posWeightSum (s : List (ℕ × ℚ)) (top_q bot_q : ℚ) : ℚ :=
  ((weightsOf s top_q bot_q).filter (fun x => decide (0 < x))).sum

/-- Sum of the negative entries of the built weight vector. -/
def negWeightSum (s : List (ℕ × ℚ)) (top_q bot_q : ℚ) : ℚ :=
  ((weightsOf s top_q bot_q).filter (fun x => decide (x < 0))).sum

/-! Helper lemmas about sums of filtered weight lists. -/

lemma negsum_map (l : List ℚ) (sc lc A B : ℚ) (hA : A < 0) (hB : 0 ≤ B) :
    ((l.map (fun x => if x ≤ sc then A else if lc ≤ x then B else 0)).filter
      (fun y => decide (y < 0))).sum
      = ((l.filter (fun x => decide (x ≤ sc))).length : ℚ) * A := by
  induction l with
  | nil => simp
  | cons x xs ih =>
    simp only [List.map_cons, List.filter_cons]
    by_cases hx : x ≤ sc
    · simp only [hx, hA, if_true, decide_True, List.sum_cons, List.length_cons]
      rw [ih]
      push_cast
      ring
    · by_cases hlx : lc ≤ x
      · simp only [hx, hlx, not_lt.2 hB, if_true, if_false, decide_True, decide_False,
          Bool.false_eq_true]
        simpa using ih
      · simp only [hx, hlx, lt_self_iff_false, if_false, decide_False, Bool.false_eq_true]
        simpa using ih

lemma possum_map (l : List ℚ) (sc lc A B : ℚ) (hA : A ≤ 0) (hB : 0 < B) :
    ((l.map (fun x => if x ≤ sc then A else if lc ≤ x then B else 0)).filter
      (fun y => decide (0 < y))).sum
      = ((l.filter (fun x => decide (¬ x ≤ sc ∧ lc ≤ x))).length : ℚ) * B := by
  induction l with
  | nil => simp
  | cons x xs ih =>
    simp only [List.map_cons, List.filter_cons]
    by_cases hx : x ≤ sc
    · simp only [hx, not_lt.2 hA, not_true, false_and, if_true, decide_True, decide_False,
        Bool.false_eq_true]
      simpa using ih
    · by_cases hlx : lc ≤ x
      · simp only [hx, hlx, hB, not_false_iff, true_and, if_true, if_false, decide_True,
          List.sum_cons, List.length_cons]
        rw [ih]
        push_cast
        ring
      · simp only [hx, hlx, lt_self_iff_false, and_false, if_false, decide_False,
          Bool.false_eq_true]
        simpa using ih

lemma length_filter_le_of (l : List ℚ) (p q : ℚ → Bool)
    (h : ∀ x ∈ l, q x = true → p x = true) :
    (l.filter q).length ≤ (l.filter p).length := by
  induction l with
  | nil => simp
  | cons a l ih =>
    have ht : ∀ x ∈ l, q x = true → p x = true := fun x hx => h x (List.mem_cons_of_mem _ hx)
    simp only [List.filter_cons]
    by_cases hq : q a = true
    · simp only [hq, h a (List.mem_cons_self _ _) hq, if_true, List.length_cons]
      exact Nat.succ_le_succ (ih ht)
    · simp only [Bool.not_eq_true] at hq
      simp only [hq]
      by_cases hp : p a = true
      · simp only [hp, if_true, List.length_cons]
        exact Nat.le_succ_of_le (ih ht)
      · simp only [Bool.not_eq_true] at hp
        simp only [hp]
        exact ih ht

lemma length_filter_lt_of (l : List ℚ) (p q : ℚ → Bool)
    (h : ∀ x ∈ l, q x = true → p x = true)
    (x₀ : ℚ) (hx : x₀ ∈ l) (hp : p x₀ = true) (hq : q x₀ = false) :
    (l.filter q).length < (l.filter p).length := by
  induction l with
  | nil => cases hx
  | cons a l ih =>
    have ht : ∀ x ∈ l, q x = true → p x = true := fun x hxl => h x (List.mem_cons_of_mem _ hxl)
    simp only [List.filter_cons]
    rcases List.mem_cons.1 hx with rfl | hmem
    · simp only [hq, hp, if_true, Bool.false_eq_true, if_false, List.length_cons]
      exact Nat.lt_succ_of_le (length_filter_le_of l p q ht)
    · by_cases hqa : q a = true
      · simp only [hqa, h a (List.mem_cons_self _ _) hqa, if_true, List.length_cons]
        exact Nat.succ_lt_succ (ih ht hmem)
      · simp only [Bool.not_eq_true] at hqa
        simp only [hqa, Bool.false_eq_true, if_false]
        by_cases hpa : p a = true
        · simp only [hpa, if_true, List.length_cons]
          exact Nat.lt_succ_of_lt (ih ht hmem)
        · simp only [Bool.not_eq_true] at hpa
          simp only [hpa, Bool.false_eq_true, if_false]
          exact ih ht hmem

/-- The weight list is the score list mapped through the selection rule. -/
lemma weightsOf_eq (s : List (ℕ × ℚ)) (top_q bot_q : ℚ) :
    weightsOf s top_q bot_q = (s.map (fun p => p.2)).map
      (fun x => if x ≤ shortCut s bot_q then -1 / (numShorts s bot_q : ℚ)
                else if longCut s top_q ≤ x then 1 / (numLongs s top_q : ℚ)
                else 0) := by
  simp only [weightsOf, buildWeights, List.map_map]
  rfl

lemma numShorts_pos_cast (s : List (ℕ × ℚ)) (bot_q : ℚ) (h : numShorts s bot_q ≠ 0) :
    (0 : ℚ) < (numShorts s bot_q : ℚ) := by
  exact_mod_cast Nat.pos_of_ne_zero h

lemma numLongs_pos_cast (s : List (ℕ × ℚ)) (top_q : ℚ) (h : numLongs s top_q ≠ 0) :
    (0 : ℚ) < (numLongs s top_q : ℚ) := by
  exact_mod_cast Nat.pos_of_ne_zero h

/-- C10: if a ticker satisfies both the long and the short threshold, the
short-leg assignment (which runs last) determines its final weight, and the
positive entries then sum to strictly less than 1 although the long leg is
nonempty. -/
theorem C10_overwrite (s : List (ℕ × ℚ)) (top_q bot_q : ℚ) (t : ℕ) (x : ℚ)
    (hmem : (t, x) ∈ s) (hlong : longCut s top_q ≤ x) (hshort : x ≤ shortCut s bot_q) :
    (t, -1 / (numShorts s bot_q : ℚ)) ∈ buildWeights s top_q bot_q ∧
    numLongs s top_q ≠ 0 ∧
    posWeightSum s top_q bot_q < 1 := by
  have hxscores : x ∈ s.map (fun p => p.2) := by
    exact List.mem_map_of_mem (fun p => p.2) hmem
  have hnL : numLongs s top_q ≠ 0 := by
    have hx2 : x ∈ (s.map (fun p => p.2)).filter (fun y => decide (longCut s top_q ≤ y)) :=
      List.mem_filter.2 ⟨hxscores, by simpa using hlong⟩
    have hpos : 0 < numLongs s top_q := List.length_pos.2 (List.ne_nil_of_mem hx2)
    exact Nat.pos_iff_ne_zero.mp hpos
  refine ⟨?_, hnL, ?_⟩
  · have := List.mem_map_of_mem
      (fun p : ℕ × ℚ =>
        (p.1,
          if p.2 ≤ shortCut s bot_q then -1 / (numShorts s bot_q : ℚ)
          else if longCut s top_q ≤ p.2 then 1 / (numLongs s top_q : ℚ)
          else 0)) hmem
    simpa [buildWeights, hshort] using this
  · have hBpos : (0 : ℚ) < 1 / (numLongs s top_q : ℚ) :=
      one_div_pos.2 (numLongs_pos_cast s top_q hnL)
    have hAle : -1 / (numShorts s bot_q : ℚ) ≤ 0 := by
      rw [neg_div]
      exact neg_nonpos.2 (div_nonneg zero_le_one (Nat.cast_nonneg _))
    have hsum := possum_map (s.map (fun p => p.2)) (shortCut s bot_q) (longCut s top_q)
      (-1 / (numShorts s bot_q : ℚ)) (1 / (numLongs s top_q : ℚ)) hAle hBpos
    have hcount : (((s.map (fun p => p.2)).filter
        (fun y => decide (¬ y ≤ shortCut s bot_q ∧ longCut s top_q ≤ y))).length)
        < numLongs s top_q := by
      refine length_filter_lt_of _ _ _ ?_ x hxscores ?_ ?_
      · intro y _ hy
        have hy' := of_decide_eq_true hy
        exact decide_eq_true hy'.2
      · simpa using hlong
      · simp [hshort]
    have hexp : posWeightSum s top_q bot_q
        = (((s.map (fun p => p.2)).filter
            (fun y => decide (¬ y ≤ shortCut s bot_q ∧ longCut s top_q ≤ y))).length : ℚ)
          * (1 / (numLongs s top_q : ℚ)) := by
      rw [posWeightSum, weightsOf_eq]
      exact hsum
    rw [hexp, mul_one_div]
    rw [div_lt_one (numLongs_pos_cast s top_q hnL)]
    exact_mod_cast hcount

/-- C10 witness: with two tickers of equal score and top_q = bot_q = 0.10,
both legs select both tickers; ticker 0 ends with the short weight -1/2 and
the positive weights sum to 0 < 1. -/
theorem C10_witness :
    ((0:ℕ), -1 / (numShorts [(0, (1:ℚ)), (1, 1)] (1/10) : ℚ)) ∈
        buildWeights [(0, (1:ℚ)), (1, 1)] (1/10) (1/10) ∧
    numLongs [(0, (1:ℚ)), (1, 1)] (1/10) ≠ 0 ∧
    posWeightSum [(0, (1:ℚ)), (1, 1)] (1/10) (1/10) < 1 :=
  C10_overwrite [(0, (1:ℚ)), (1, 1)] (1/10) (1/10) 0 1 (by decide)
    (by norm_num [longCut, quantile, sortAsc, insertAsc, Int.toNat_ofNat,
      List.getD_cons_zero, List.getD_cons_succ])
    (by norm_num [shortCut, quantile, sortAsc, insertAsc, Int.toNat_ofNat,
      List.getD_cons_zero, List.getD_cons_succ])

/-- C2 counterexample: a cross-section of two equal scores makes both legs
select both tickers; the long leg is nonempty and yet the positive entries
sum to 0, not 1 (and the deviation far exceeds the 1e-9 tolerance). -/
theorem C2_counterexample :
    numLongs [(0, (1:ℚ)), (1, 1)] (1/10) ≠ 0 ∧
    posWeightSum [(0, (1:ℚ)), (1, 1)] (1/10) (1/10) = 0 ∧
    ¬ |posWeightSum [(0, (1:ℚ)), (1, 1)] (1/10) (1/10) - 1| ≤ 1 / 1000000000 := by
  norm_num [numLongs, numShorts, posWeightSum, weightsOf, buildWeights, longCut, shortCut,
    quantile, sortAsc, insertAsc, Int.toNat_ofNat, List.getD_cons_zero, List.getD_cons_succ]

/-- C2 (amended): if the short leg is nonempty the negative entries sum to
exactly -1; if the long leg is nonempty and no selected long also meets the
short threshold (which would overwrite it), the positive entries sum to
exactly 1; every ticker outside the selected legs has weight exactly 0. -/
theorem C2_amended (s : List (ℕ × ℚ)) (top_q bot_q : ℚ) :
    (numShorts s bot_q ≠ 0 → negWeightSum s top_q bot_q = -1) ∧
    (numLongs s top_q ≠ 0 →
      (∀ p ∈ s, longCut s top_q ≤ p.2 → ¬ p.2 ≤ shortCut s bot_q) →
      posWeightSum s top_q bot_q = 1) ∧
    (∀ p ∈ s, ¬ p.2 ≤ shortCut s bot_q → ¬ longCut s top_q ≤ p.2 →
      (p.1, (0:ℚ)) ∈ buildWeights s top_q bot_q) := by
  refine ⟨?_, ?_, ?_⟩
  · intro hnS
    have hScast := numShorts_pos_cast s bot_q hnS
    have hAneg : -1 / (numShorts s bot_q : ℚ) < 0 := by
      rw [neg_div]
      exact neg_neg_of_pos (div_pos one_pos hScast)
    have hBnn : (0 : ℚ) ≤ 1 / (numLongs s top_q : ℚ) :=
      div_nonneg zero_le_one (Nat.cast_nonneg _)
    have hsum := negsum_map (s.map (fun p => p.2)) (shortCut s bot_q) (longCut s top_q)
      (-1 / (numShorts s bot_q : ℚ)) (1 / (numLongs s top_q : ℚ)) hAneg hBnn
    rw [negWeightSum, weightsOf_eq, hsum]
    show (numShorts s bot_q : ℚ) * (-1 / (numShorts s bot_q : ℚ)) = -1
    field_simp
  · intro hnL hdisj
    have hBpos : (0 : ℚ) < 1 / (numLongs s top_q : ℚ) :=
      one_div_pos.2 (numLongs_pos_cast s top_q hnL)
    have hAle : -1 / (numShorts s bot_q : ℚ) ≤ 0 := by
      rw [neg_div]
      exact neg_nonpos.2 (div_nonneg zero_le_one (Nat.cast_nonneg _))
    have hsum := possum_map (s.map (fun p => p.2)) (shortCut s bot_q) (longCut s top_q)
      (-1 / (numShorts s bot_q : ℚ)) (1 / (numLongs s top_q : ℚ)) hAle hBpos
    have hfil : (s.map (fun p => p.2)).filter
        (fun y => decide (¬ y ≤ shortCut s bot_q ∧ longCut s top_q ≤ y))
        = (s.map (fun p => p.2)).filter (fun y => decide (longCut s top_q ≤ y)) := by
      apply List.filter_congr
      intro y hy
      rcases List.mem_map.1 hy with ⟨p, hp, rfl⟩
      rw [decide_eq_decide]
      constructor
      · exact fun h => h.2
      · exact fun h => ⟨hdisj p hp h, h⟩
    rw [posWeightSum, weightsOf_eq, hsum, hfil]
    show (numLongs s top_q : ℚ) * (1 / (numLongs s top_q : ℚ)) = 1
    field_simp
  · intro p hp hns hnl
    have := List.mem_map_of_mem
      (fun p : ℕ × ℚ =>
        (p.1,
          if p.2 ≤ shortCut s bot_q then -1 / (numShorts s bot_q : ℚ)
          else if longCut s top_q ≤ p.2 then 1 / (numLongs s top_q : ℚ)
          else 0)) hp
    simpa [buildWeights, hns, hnl] using this

/-- C2 witness: four distinct scores with top_q = bot_q = 0.25 give disjoint
legs {3} and {0}; the negative entries sum to -1 and the positive ones to 1. -/
theorem C2_witness :
    negWeightSum [(0, (0:ℚ)), (1, 1), (2, 2), (3, 3)] (1/4) (1/4) = -1 ∧
    posWeightSum [(0, (0:ℚ)), (1, 1), (2, 2), (3, 3)] (1/4) (1/4) = 1 :=
  ⟨(C2_amended [(0, (0:ℚ)), (1, 1), (2, 2), (3, 3)] (1/4) (1/4)).1
      (by norm_num [numShorts, shortCut, quantile, sortAsc, insertAsc]),
   (C2_amended [(0, (0:ℚ)), (1, 1), (2, 2), (3, 3)] (1/4) (1/4)).2.1
      (by
        norm_num [numLongs, longCut, quantile, sortAsc, insertAsc]
        all_goals simp only [Int.reduceToNat]
        all_goals norm_num)
      (by
        norm_num [longCut, shortCut, quantile, sortAsc, insertAsc]
        all_goals simp only [Int.reduceToNat]
        all_goals norm_num)⟩

/-! The walk-forward splitter of src/model.py. -/

/-- make_walkforward_splits: for each candidate test_start in the sorted
rebalance dates, train = dates in [test_start - train_years, test_start),
test = dates in [test_start, test_start + test_months); the pair is kept
when the train window has at least 24 dates and the test window at least
one (the python code skips with continue otherwise).  Dates are month
serial numbers, so DateOffset(years=y) is 12*y and DateOffset(months=m)
is m. -/
def make_walkforward_splits (rebal : List ℤ) (train_years test_months : ℤ) :
    List (List ℤ × List ℤ) :=
  let r := sortAsc rebal
  r.filterMap (fun ts =>
    let train := r.filter (fun d => decide (ts - 12 * train_years ≤ d ∧ d < ts))
    let test := r.filter (fun d => decide (ts ≤ d ∧ d < ts + test_months))
    if 24 ≤ train.length ∧ 1 ≤ test.length then some (train, test) else none)

/-- The no-look-ahead property of a (train, test) pair: the windows are
disjoint and every train date is strictly earlier than every test date
(hence max(train) < min(test)). -/
def NoLookahead (tr te : List ℤ) : Prop :=
  (∀ a ∈ tr, a ∉ te) ∧ ∀ a ∈ tr, ∀ b ∈ te, a < b

/-! The training/scoring loop of generate_monthly_positions.  The fitted
scorer is abstracted as a function score of the training window, the test
date and the ticker: the model is refit from scratch on every split, so
its predictions depend on exactly these inputs.  rowsAt d lists the
tickers having a complete (features, target) row at date d, modelling the
cross-sections of the usable panel. -/

/-- Number of usable training rows for a list of dates: the cross-section
sizes summed, modelling len(X_train). -/
def usableCount (rowsAt : ℤ → List ℕ) (ds : List ℤ) : ℕ :=
  (ds.map (fun d => (rowsAt d).length)).sum

/-- The chronological sequence of dict assignments
monthly_positions[d] = w performed by generate_monthly_positions: for
each split passing the 1000-row training guard, for each test date whose
cross-section has at least min_universe tickers, the weight vector built
from the scored cross-section.  Splits failing a guard contribute
nothing (continue). -/
def scheduleWrites (rowsAt : ℤ → List ℕ) (score : List ℤ → ℤ → ℕ → ℚ)
    (rebal : List ℤ) (top_q bot_q : ℚ) (min_universe : ℕ) :
    List (ℤ × List (ℕ × ℚ)) :=
  ((make_walkforward_splits rebal 5 6).map (fun s =>
    if usableCount rowsAt s.1 < 1000 then []
    else s.2.filterMap (fun d =>
      let tk := rowsAt d
      if tk.length < min_universe then none
      else some (d, buildWeights (tk.map (fun t => (t, score s.1 d t))) top_q bot_q)))).flatten

/-- Python dict assignment m[k] = v: replaces the value at an existing
key in place, appends a new key at the end. -/
def insertD {α : Type} : List (ℤ × α) → ℤ → α → List (ℤ × α)
  | [], k, v => [(k, v)]
  | e :: rest, k, v => if e.1 = k then (k, v) :: rest else e :: insertD rest k v

/-- Python dict lookup m[k]. -/
def lookupD {α : Type} (m : List (ℤ × α)) (k : ℤ) : Option α :=
  (m.find? (fun e => decide (e.1 = k))).map (fun e => e.2)

/-- The value of the last write with the given key in a write sequence. -/
def lastWrite {α : Type} : List (ℤ × α) → ℤ → Option α
  | [], _ => none
  | w :: ws, k =>
    match lastWrite ws k with
    | some v => some v
    | none => if w.1 = k then some w.2 else none

/-- generate_monthly_positions: the dict obtained by performing the
chronological sequence of per-test-date assignments. -/
def generate_monthly_positions (rowsAt : ℤ → List ℕ) (score : List ℤ → ℤ → ℕ → ℚ)
    (rebal : List ℤ) (top_q bot_q : ℚ) (min_universe : ℕ) : List (ℤ × List (ℕ × ℚ)) :=
  (scheduleWrites rowsAt score rebal top_q bot_q min_universe).foldl
    (fun m e => insertD m e.1 e.2) []

lemma lookupD_cons {α : Type} (e : ℤ × α) (l : List (ℤ × α)) (k2 : ℤ) :
    lookupD (e :: l) k2 = if e.1 = k2 then some e.2 else lookupD l k2 := by
  by_cases h : e.1 = k2 <;> simp [lookupD, List.find?, h]

lemma lookupD_insertD {α : Type} (m : List (ℤ × α)) (k : ℤ) (v : α) (k2 : ℤ) :
    lookupD (insertD m k v) k2 = if k = k2 then some v else lookupD m k2 := by
  induction m with
  | nil =>
    by_cases h : k = k2 <;> simp [insertD, lookupD, List.find?, h]
  | cons e rest ih =>
    rw [insertD]
    by_cases he : e.1 = k
    · rw [if_pos he, lookupD_cons, lookupD_cons]
      by_cases h : k = k2
      · rw [if_pos h, if_pos h]
      · rw [if_neg h, if_neg h, if_neg (fun hx => h (he ▸ hx))]
    · rw [if_neg he, lookupD_cons, lookupD_cons]
      by_cases h2 : e.1 = k2
      · have h : ¬ k = k2 := fun hk => he (by rw [h2, hk])
        rw [if_pos h2, if_neg h, if_pos h2]
      · rw [if_neg h2, if_neg h2, ih]

lemma foldl_insertD_lookup {α : Type} (ws : List (ℤ × α)) (m : List (ℤ × α)) (k : ℤ) :
    lookupD (ws.foldl (fun acc e => insertD acc e.1 e.2) m) k
      = match lastWrite ws k with
        | some v => some v
        | none => lookupD m k := by
  induction ws generalizing m with
  | nil => simp [lastWrite]
  | cons w ws ih =>
    simp only [List.foldl_cons]
    rw [ih]
    cases hlw : lastWrite ws k with
    | some v => simp [lastWrite, hlw]
    | none =>
      simp only [lastWrite, hlw, lookupD_insertD]
      by_cases h : w.1 = k <;> simp [h]

/-- C4: every (train, test) pair emitted by the walk-forward splitter has
disjoint windows and every train date strictly precedes every test date. -/
theorem C4_no_lookahead (rebal : List ℤ) (train_years test_months : ℤ)
    (tr te : List ℤ)
    (h : (tr, te) ∈ make_walkforward_splits rebal train_years test_months) :
    NoLookahead tr te := by
  rw [make_walkforward_splits] at h
  rcases List.mem_filterMap.1 h with ⟨ts, _, hf⟩
  by_cases hc : 24 ≤ ((sortAsc rebal).filter
        (fun d => decide (ts - 12 * train_years ≤ d ∧ d < ts))).length ∧
      1 ≤ ((sortAsc rebal).filter (fun d => decide (ts ≤ d ∧ d < ts + test_months))).length
  · simp only [hc, if_true, Option.some.injEq, Prod.mk.injEq] at hf
    obtain ⟨rfl, rfl⟩ := hf
    constructor
    · intro a ha hb
      have ha2 := of_decide_eq_true (List.mem_filter.1 ha).2
      have hb2 := of_decide_eq_true (List.mem_filter.1 hb).2
      exact absurd hb2.1 (not_le.2 ha2.2)
    · intro a ha b hb
      have ha2 := of_decide_eq_true (List.mem_filter.1 ha).2
      have hb2 := of_decide_eq_true (List.mem_filter.1 hb).2
      exact lt_of_lt_of_le ha2.2 hb2.1
  · simp only [hc, if_false] at hf
    cases hf

/-- A 25-month rebalance schedule: months 0..24. -/
def rebalW : List ℤ := (List.range 25).map (fun n => (n : ℤ))

/-- The train window of the single split of rebalW: months 0..23. -/
def trW : List ℤ := (List.range 24).map (fun n => (n : ℤ))

/-- The test window of the single split of rebalW. -/
def teW : List ℤ := [(24 : ℤ)]

/-- C4 witness: the split ([0..23], [24]) is emitted for the 25-month
schedule and satisfies the no-look-ahead property. -/
theorem C4_witness : NoLookahead trW teW :=
  C4_no_lookahead rebalW 5 6 trW teW (by decide)

/-- C3 (amended): in generate_monthly_positions the final schedule maps each
test date to the weight vector of the LAST split (in processing order) that
produced an entry for it; several splits can produce entries for one date,
later ones overwriting earlier ones, so only the key set, not the values,
is independent of the processing order. -/
theorem C3_amended (rowsAt : ℤ → List ℕ) (score : List ℤ → ℤ → ℕ → ℚ)
    (rebal : List ℤ) (top_q bot_q : ℚ) (min_universe : ℕ) (d : ℤ) :
    lookupD (generate_monthly_positions rowsAt score rebal top_q bot_q min_universe) d
      = lastWrite (scheduleWrites rowsAt score rebal top_q bot_q min_universe) d := by
  rw [generate_monthly_positions, foldl_insertD_lookup]
  cases lastWrite (scheduleWrites rowsAt score rebal top_q bot_q min_universe) d with
  | some v => rfl
  | none => simp [lookupD]

/-- A usable panel for the C3 scenario: 1000 complete rows at month 0 and a
two-ticker cross-section everywhere else, so every split passes the
1000-row training guard while the test cross-sections stay small. -/
def rowsAtC (d : ℤ) : List ℕ := if d = 0 then List.range 1000 else [0, 1]

/-- A scorer for the C3 scenario whose prediction depends on the training
window, as the refit model's predictions do: trained on a 24-month window
it favours ticker 0, on any other window ticker 1. -/
def scoreC (tr : List ℤ) (_d : ℤ) (t : ℕ) : ℚ :=
  if tr.length = 24 then (if t = 0 then 1 else 0) else (if t = 1 then 1 else 0)

/-- A 31-month rebalance schedule: months 0..30. -/
def rebalC : List ℤ := (List.range 31).map (fun n => (n : ℤ))

set_option maxRecDepth 100000 in
/-- C3 counterexample: with the 31-month schedule, month 25 receives an
entry from TWO different splits (test windows of successive splits
overlap), the two entries differ, and the final schedule keeps the one
from the later split, so the merge is not order-independent and the claim
that exactly one split produces each entry is false. -/
theorem C3_counterexample :
    ((scheduleWrites rowsAtC scoreC rebalC (1/10) (1/10) 1).map Prod.fst).count 25 = 2 ∧
    (scheduleWrites rowsAtC scoreC rebalC (1/10) (1/10) 1).get? 1
      = some (25, buildWeights [(0, (1:ℚ)), (1, 0)] (1/10) (1/10)) ∧
    (scheduleWrites rowsAtC scoreC rebalC (1/10) (1/10) 1).get? 6
      = some (25, buildWeights [(0, (0:ℚ)), (1, 1)] (1/10) (1/10)) ∧
    buildWeights [(0, (1:ℚ)), (1, 0)] (1/10) (1/10)
      ≠ buildWeights [(0, (0:ℚ)), (1, 1)] (1/10) (1/10) ∧
    lookupD (generate_monthly_positions rowsAtC scoreC rebalC (1/10) (1/10) 1) 25
      = some (buildWeights [(0, (0:ℚ)), (1, 1)] (1/10) (1/10)) := by
  refine ⟨by decide, rfl, rfl, ?_, rfl⟩
  norm_num [buildWeights, longCut, shortCut, quantile, numLongs, numShorts,
    sortAsc, insertAsc]

/-! The portfolio simulator backtest_positions of src/backtest.py. -/

/-- The wide price panel px = panel["close"].unstack("ticker"): dates are
the distinct trading days, tickers the distinct column labels, and close
gives the close price, none when the price is missing (NaN). -/
structure PricePanel where
  dates : List ℤ
  tickers : List ℕ
  close : ℤ → ℕ → Option ℚ

/-- The sorted trading-date index (px.sort_index()); the dates of a panel
are distinct trading days. -/
def tradingDates (p : PricePanel) : List ℤ :=
  sortAsc p.dates

/-- A weight vector: ticker/weight pairs for one rebalance date. -/
abbrev WeightVec := List (ℕ × ℚ)

/-- A position schedule: rebalance date/weight vector pairs with distinct
dates (a python dict). -/
abbrev PositionSchedule := List (ℤ × WeightVec)

/-- Weight of a ticker in a weight vector; tickers absent from the vector
get weight 0 (the reindex(columns).fillna(0.0) step). -/
def lookupW (w : WeightVec) (t : ℕ) : ℚ :=
  match w.find? (fun e => decide (e.1 = t)) with
  | some e => e.2
  | none => 0

/-- The schedule entry governing date d: the entry with the largest
rebalance date <= d, none when d precedes every entry.  This is the
forward-fill pos_df.reindex(daily_ret.index, method="ffill"). -/
def latestOn (sched : PositionSchedule) (d : ℤ) : Option (ℤ × WeightVec) :=
  sched.foldl
    (fun acc e =>
      if e.1 ≤ d then
        match acc with
        | none => some e
        | some a => if a.1 ≤ e.1 then some e else some a
      else acc)
    none

/-- The forward-filled daily weight of ticker t on date d; all-zero
before the first rebalance date (the final fillna(0.0)). -/
def dailyW (sched : PositionSchedule) (d : ℤ) (t : ℕ) : ℚ :=
  match latestOn sched d with
  | none => 0
  | some e => lookupW e.2 t

/-- The per-ticker simple return on trading day i (px.pct_change()):
undefined (NaN) on the first day and whenever one of the two prices is
missing.  Prices are positive market data, so division by a zero price
is not modelled. -/
def retAt (p : PricePanel) (i : ℕ) (t : ℕ) : Option ℚ :=
  if i = 0 then none
  else
    match p.close ((tradingDates p).getD (i - 1) 0) t,
        p.close ((tradingDates p).getD i 0) t with
    | some a, some b => some (b / a - 1)
    | _, _ => none

/-- Daily turnover (sum of absolute day-over-day weight changes)/2; the
first row of daily_w.diff() is NaN and fillna(0.0) makes day 0 free. -/
def turnoverAt (p : PricePanel) (sched : PositionSchedule) (i : ℕ) : ℚ :=
  if i = 0 then 0
  else
    ((p.tickers.map (fun t =>
      |dailyW sched ((tradingDates p).getD i 0) t
        - dailyW sched ((tradingDates p).getD (i - 1) 0) t|)).sum) / 2

/-- Yesterday's weight (daily_w.shift(1).fillna(0.0)): 0 on the first
trading day. -/
def wPrev (p : PricePanel) (sched : PositionSchedule) (i : ℕ) (t : ℕ) : ℚ :=
  if i = 0 then 0 else dailyW sched ((tradingDates p).getD (i - 1) 0) t

/-- One summand of the weights-times-returns dot product: pandas sum
skips NaN, so an undefined per-ticker return contributes 0. -/
def optMul (w : ℚ) : Option ℚ → ℚ
  | none => 0
  | some r => w * r

/-- The portfolio return of trading day i: yesterday's weights applied to
today's per-ticker returns, minus today's transaction cost
turnover * tc_bps/10000. -/
def dayRet (p : PricePanel) (sched : PositionSchedule) (tc_bps : ℚ) (i : ℕ) : ℚ :=
  (p.tickers.map (fun t => optMul (wPrev p sched i t) (retAt p i t))).sum
    - turnoverAt p sched i * (tc_bps / 10000)

/-- backtest_positions: raises (none) when the schedule is empty,
otherwise returns the daily portfolio return series over the sorted
trading-date index. -/
def backtest_positions (p : PricePanel) (sched : PositionSchedule) (tc_bps : ℚ) :
    Option (List ℚ) :=
  if sched = [] then none
  else some ((List.range (tradingDates p).length).map (dayRet p sched tc_bps))

/-- The price panel of the C1 scenario: tickers A = 0 with closes
[100, 110, 99] and B = 1 with closes [50, 49, 52] on days 0, 1, 2. -/
def panelC1 : PricePanel where
  dates := [0, 1, 2]
  tickers := [0, 1]
  close := fun d t =>
    if d = 0 then (if t = 0 then some 100 else some 50)
    else if d = 1 then (if t = 0 then some 110 else some 49)
    else if d = 2 then (if t = 0 then some 99 else some 52)
    else none

/-- The position schedule of the C1 scenario: {day0: {A: 0.5, B: 0.5}}. -/
def schedC1 : PositionSchedule := [(0, [(0, 1/2), (1, 1/2)])]

lemma foldl_latest_mem (l : List (ℤ × WeightVec)) (d : ℤ) :
    ∀ (acc : Option (ℤ × WeightVec)) (e : ℤ × WeightVec),
      l.foldl
        (fun acc e =>
          if e.1 ≤ d then
            match acc with
            | none => some e
            | some a => if a.1 ≤ e.1 then some e else some a
          else acc)
        acc = some e →
      e ∈ l ∨ acc = some e := by
  induction l with
  | nil =>
    intro acc e h
    right
    exact h
  | cons x xs ih =>
    intro acc e h
    simp only [List.foldl_cons] at h
    rcases ih _ e h with hmem | hacc
    · left
      exact List.mem_cons_of_mem _ hmem
    · by_cases hx : x.1 ≤ d
      · rw [if_pos hx] at hacc
        cases acc with
        | none =>
          left
          have hacc2 : some x = some e := hacc
          injection hacc2 with hxe
          rw [← hxe]
          exact List.mem_cons_self _ _
        | some a =>
          have hacc2 : (if a.1 ≤ x.1 then some x else some a) = some e := hacc
          by_cases hle : a.1 ≤ x.1
          · rw [if_pos hle] at hacc2
            left
            injection hacc2 with hxe
            rw [← hxe]
            exact List.mem_cons_self _ _
          · rw [if_neg hle] at hacc2
            right
            exact hacc2
      · rw [if_neg hx] at hacc
        right
        exact hacc

lemma latestOn_mem (sched : PositionSchedule) (d : ℤ) (e : ℤ × WeightVec)
    (h : latestOn sched d = some e) : e ∈ sched := by
  rcases foldl_latest_mem sched d none e h with hm | hacc
  · exact hm
  · cases hacc

/-- C8: the simulator fails (raises, modelled as none) exactly when the
position schedule is empty; every non-empty schedule yields a result. -/
theorem C8_empty_schedule (p : PricePanel) (sched : PositionSchedule) (tc_bps : ℚ) :
    backtest_positions p sched tc_bps = none ↔ sched = [] := by
  rw [backtest_positions]
  by_cases h : sched = [] <;> simp [h]

/-- C9: daily turnover is nonnegative, and it is zero on every day whose
projected (forward-filled) weight vector equals the prior day's. -/
theorem C9_turnover (p : PricePanel) (sched : PositionSchedule) (i : ℕ) :
    0 ≤ turnoverAt p sched i ∧
    ((∀ t ∈ p.tickers,
        dailyW sched ((tradingDates p).getD i 0) t
          = dailyW sched ((tradingDates p).getD (i - 1) 0) t) →
      turnoverAt p sched i = 0) := by
  constructor
  · rw [turnoverAt]
    by_cases h : i = 0
    · simp [h]
    · rw [if_neg h]
      apply div_nonneg _ (by norm_num)
      apply List.sum_nonneg
      intro x hx
      rcases List.mem_map.1 hx with ⟨t, _, rfl⟩
      exact abs_nonneg _
  · intro hsame
    rw [turnoverAt]
    by_cases h : i = 0
    · rw [if_pos h]
    · rw [if_neg h]
      rw [List.sum_eq_zero, zero_div]
      intro x hx
      rcases List.mem_map.1 hx with ⟨t, ht, rfl⟩
      rw [hsame t ht, sub_self, abs_zero]

/-- C9 witness: on day 2 of the C1 scenario the projected weights are
unchanged from day 1 and the turnover is 0. -/
theorem C9_witness :
    0 ≤ turnoverAt panelC1 schedC1 2 ∧ turnoverAt panelC1 schedC1 2 = 0 :=
  ⟨(C9_turnover panelC1 schedC1 2).1,
   (C9_turnover panelC1 schedC1 2).2
     (by norm_num [dailyW, latestOn, lookupW, tradingDates, sortAsc, insertAsc,
       schedC1, panelC1])⟩

/-- C5: a non-empty schedule all of whose weight vectors are all-zero
yields the identically-zero daily return series over the whole
trading-date index. -/
theorem C5_zero_weights (p : PricePanel) (sched : PositionSchedule) (tc_bps : ℚ)
    (hne : sched ≠ []) (hzero : ∀ e ∈ sched, ∀ q ∈ e.2, q.2 = 0) :
    backtest_positions p sched tc_bps
      = some (List.replicate (tradingDates p).length 0) := by
  have hW : ∀ d t, dailyW sched d t = 0 := by
    intro d t
    cases hl : latestOn sched d with
    | none => simp [dailyW, hl]
    | some e =>
      have he : e ∈ sched := latestOn_mem sched d e hl
      cases hf : e.2.find? (fun q => decide (q.1 = t)) with
      | none => simp [dailyW, hl, lookupW, hf]
      | some q =>
        have hq : dailyW sched d t = q.2 := by simp [dailyW, hl, lookupW, hf]
        rw [hq]
        exact hzero e he q (List.mem_of_find?_eq_some hf)
  have hday : ∀ i, dayRet p sched tc_bps i = 0 := by
    intro i
    rw [dayRet]
    have h1 : (p.tickers.map (fun t => optMul (wPrev p sched i t) (retAt p i t))).sum = 0 := by
      apply List.sum_eq_zero
      intro x hx
      rcases List.mem_map.1 hx with ⟨t, _, rfl⟩
      have hw : wPrev p sched i t = 0 := by
        rw [wPrev]
        by_cases h : i = 0
        · rw [if_pos h]
        · rw [if_neg h, hW]
      rw [hw]
      cases retAt p i t <;> simp [optMul]
    have h2 : turnoverAt p sched i = 0 := by
      rw [turnoverAt]
      by_cases h : i = 0
      · rw [if_pos h]
      · rw [if_neg h]
        rw [List.sum_eq_zero, zero_div]
        intro x hx
        rcases List.mem_map.1 hx with ⟨t, _, rfl⟩
        rw [hW, hW, sub_self, abs_zero]
    rw [h1, h2, zero_mul, sub_zero]
  rw [backtest_positions, if_neg hne]
  congr 1
  have hmem : ∀ b ∈ (List.range (tradingDates p).length).map (dayRet p sched tc_bps),
      b = (0 : ℚ) := by
    intro b hb
    rcases List.mem_map.1 hb with ⟨i, _, rfl⟩
    exact hday i
  calc (List.range (tradingDates p).length).map (dayRet p sched tc_bps)
      = List.replicate ((List.range (tradingDates p).length).map
          (dayRet p sched tc_bps)).length 0 := List.eq_replicate_of_mem hmem
    _ = List.replicate (tradingDates p).length 0 := by
        rw [List.length_map, List.length_range]

/-- An all-zero position schedule on the C1 panel. -/
def zeroSchedC1 : PositionSchedule := [(0, [(0, 0), (1, 0)])]

/-- C5 witness: the all-zero schedule on the C1 panel produces the zero
series over the three trading days. -/
theorem C5_witness :
    backtest_positions panelC1 zeroSchedC1 5
      = some (List.replicate (tradingDates panelC1).length 0) :=
  C5_zero_weights panelC1 zeroSchedC1 5 (by decide) (by decide)

/-- Evaluation of the simulator on the C1 scenario.  The initial weight
change on day 0 is erased by diff().fillna(0.0), so no transaction cost
is ever charged: day 1 earns the full 0.5*0.10 + 0.5*(-0.02) = 0.04 and
day 2 earns 0.5*(99/110 - 1) + 0.5*(52/49 - 1) = -19/980. -/
lemma backtestC1_eval : backtest_positions panelC1 schedC1 5 = some [0, 1/25, -19/980] := by
  have hlen : (tradingDates panelC1).length = 3 := by decide
  have hrange : List.range 3 = [0, 1, 2] := by decide
  have g0 : (tradingDates panelC1).getD 0 0 = 0 := by decide
  have g1 : (tradingDates panelC1).getD 1 0 = 1 := by decide
  have g2 : (tradingDates panelC1).getD 2 0 = 2 := by decide
  have hT : panelC1.tickers = [0, 1] := rfl
  have hw : ∀ d : ℤ, 0 ≤ d → ∀ t : ℕ, t < 2 → dailyW schedC1 d t = 1/2 := by
    intro d hd t ht
    have hl : latestOn schedC1 d = some (0, [(0, 1/2), (1, 1/2)]) := by
      simp [latestOn, schedC1, hd]
    interval_cases t <;> simp [dailyW, hl, lookupW, List.find?]
  have r00 : ∀ t, retAt panelC1 0 t = none := fun t => rfl
  have r10 : retAt panelC1 1 0 = some (110/100 - 1) := rfl
  have r11 : retAt panelC1 1 1 = some (49/50 - 1) := rfl
  have r20 : retAt panelC1 2 0 = some (99/110 - 1) := rfl
  have r21 : retAt panelC1 2 1 = some (52/49 - 1) := rfl
  rw [backtest_positions, if_neg (by decide), hlen, hrange]
  simp only [List.map_cons, List.map_nil, dayRet, turnoverAt, wPrev, g0, g1, g2, hT]
  norm_num [hw, r00, r10, r11, r20, r21, optMul]

/-- C1 counterexample: the simulator's day-1 return on the scenario is
0.04, not the 0.03975 the claim expects (the entry cost 0.00025 is never
charged, because the day-0 row of diff() is NaN and is filled with 0),
and the day-2 return is -19/980, not exactly -0.0194. -/
theorem C1_counterexample :
    backtest_positions panelC1 schedC1 5 ≠ some [0, 3975/100000, -194/10000] := by
  rw [backtestC1_eval]
  intro h
  injection h with h2
  simp only [List.cons.injEq] at h2
  norm_num at h2

/-- C1 (amended): on the scenario the daily return series is
[0, 0.04, -19/980]: day 0 is 0; day 1 is 0.5*(110/100-1) + 0.5*(49/50-1)
= 0.04 with no transaction cost, because the day-0 weight entry is the
first row of diff() and its NaN is filled with 0, so the 0.5 turnover of
the initial entry is never charged; day 2 is
0.5*(99/110-1) + 0.5*(52/49-1) = -19/980 (approximately -0.0194). -/
theorem C1_amended_scenario :
    backtest_positions panelC1 schedC1 5 = some [0, 1/25, -19/980] :=
  backtestC1_eval

/-! The performance analyzer compute_perf_stats of src/backtest.py.
CAGR and Sharpe involve float ** and sqrt, irrational in general, so they
are modelled in the real numbers; MaxDD uses only field operations and
stays rational.  NaN outcomes are modelled as none. -/

/-- returns.dropna(). -/
def dropna (l : List (Option ℚ)) : List ℚ := l.filterMap id

/-- Cumulative products continuing from accumulator a:
cumprodFrom a [x1, x2, ...] = [a*x1, a*x1*x2, ...]. -/
def cumprodFrom (a : ℚ) : List ℚ → List ℚ
  | [] => []
  | x :: xs => (a * x) :: cumprodFrom (a * x) xs

/-- equity = (1 + r).cumprod(). -/
def equityCurve (r : List ℚ) : List ℚ :=
  cumprodFrom 1 (r.map (fun x => 1 + x))

/-- Running maxima continuing from m. -/
def cummaxFrom (m : ℚ) : List ℚ → List ℚ
  | [] => []
  | x :: xs => max m x :: cummaxFrom (max m x) xs

/-- peak = equity.cummax(). -/
def runningPeak : List ℚ → List ℚ
  | [] => []
  | x :: xs => x :: cummaxFrom x xs

/-- One cell of dd = equity/peak - 1.  A peak of 0 forces the equity
there to be 0 as well (the cumulative product is absorbed at 0), so that
cell is 0/0 = NaN, modelled as none. -/
def ddCell (x p : ℚ) : Option ℚ :=
  if p = 0 then none else some (x / p - 1)

/-- dd = equity/peak - 1, elementwise. -/
def drawdowns (e : List ℚ) : List (Option ℚ) :=
  List.zipWith ddCell e (runningPeak e)

/-- Series.min() with the pandas default skipna: the minimum of the
non-NaN entries, NaN when every entry is NaN. -/
def minSkipna (l : List (Option ℚ)) : Option ℚ :=
  match l.filterMap id with
  | [] => none
  | x :: xs => some (xs.foldl min x)

/-- MaxDD = dd.min() for the drawdowns of the equity curve. -/
def maxDD (r : List ℚ) : Option ℚ :=
  minSkipna (drawdowns (equityCurve r))

/-- equity.iloc[-1]; only used on nonempty series. -/
def equityLast (r : List ℚ) : ℚ := (equityCurve r).getLastD 0

/-- Series.mean(). -/
def meanQ (r : List ℚ) : ℚ := r.sum / r.length

/-- Sample variance with ddof = 1, the pandas Series.std default; only
used on series of length at least 2. -/
def svar (r : List ℚ) : ℚ :=
  (r.map (fun x => (x - meanQ r) ^ 2)).sum / ((r.length : ℚ) - 1)

/-- CAGR = equity_final^(1/years) - 1 when years > 0, else 0.  numpy
float ** is real exponentiation; on a negative base with fractional
exponent it yields NaN, modelled as none. -/
noncomputable def cagrStat (r : List ℚ) (freq : ℕ) : Option ℝ :=
  let years : ℚ := if 0 < freq then (r.length : ℚ) / freq else 0
  if 0 < years then
    if equityLast r < 0 then none
    else some (((equityLast r : ℝ)) ^ ((1 : ℝ) / (years : ℝ)) - 1)
  else some 0

/-- Sharpe = mean/(std + 1e-12) * sqrt(freq).  With ddof = 1 the sample
standard deviation of fewer than two observations is NaN, which
propagates to the whole expression, modelled as none. -/
noncomputable def sharpeStat (r : List ℚ) (freq : ℕ) : Option ℝ :=
  if 2 ≤ r.length then
    some (((meanQ r : ℝ) / (Real.sqrt ((svar r : ℝ)) + 1e-12)) * Real.sqrt (freq : ℝ))
  else none

/-- The analyzer's result record. -/
structure PerfStats where
  cagr : Option ℝ
  sharpe : Option ℝ
  maxdd : Option ℚ

/-- compute_perf_stats: the neutral zeroed result on a series that is
empty after dropna, otherwise the three statistics of the cleaned
series. -/
noncomputable def compute_perf_stats (returns : List (Option ℚ)) (freq : ℕ) : PerfStats :=
  let r := dropna returns
  if r = [] then ⟨some 0, some 0, some 0⟩
  else ⟨cagrStat r freq, sharpeStat r freq, maxDD r⟩

/-- The equity curve is non-decreasing. -/
def nondecreasing (l : List ℚ) : Prop := List.Chain' (· ≤ ·) l

lemma perf_maxdd (returns : List (Option ℚ)) (freq : ℕ) :
    (compute_perf_stats returns freq).maxdd
      = if dropna returns = [] then some 0 else maxDD (dropna returns) := by
  by_cases h : dropna returns = [] <;> simp [compute_perf_stats, h]

lemma perf_sharpe (returns : List (Option ℚ)) (freq : ℕ) :
    (compute_perf_stats returns freq).sharpe
      = if dropna returns = [] then some 0 else sharpeStat (dropna returns) freq := by
  by_cases h : dropna returns = [] <;> simp [compute_perf_stats, h]

lemma perf_cagr (returns : List (Option ℚ)) (freq : ℕ) :
    (compute_perf_stats returns freq).cagr
      = if dropna returns = [] then some 0 else cagrStat (dropna returns) freq := by
  by_cases h : dropna returns = [] <;> simp [compute_perf_stats, h]

lemma foldl_min_le_init (l : List ℚ) : ∀ a : ℚ, l.foldl min a ≤ a := by
  induction l with
  | nil => intro a; exact le_refl a
  | cons x xs ih =>
    intro a
    exact le_trans (ih (min a x)) (min_le_left a x)

lemma foldl_min_le_mem (l : List ℚ) : ∀ (a x : ℚ), x ∈ l → l.foldl min a ≤ x := by
  induction l with
  | nil => intro a x hx; cases hx
  | cons y ys ih =>
    intro a x hx
    rcases List.mem_cons.1 hx with rfl | hmem
    · exact le_trans (foldl_min_le_init ys (min a x)) (min_le_right a x)
    · exact ih (min a y) x hmem

lemma le_foldl_min (l : List ℚ) : ∀ (a c : ℚ), c ≤ a → (∀ x ∈ l, c ≤ x) →
    c ≤ l.foldl min a := by
  induction l with
  | nil => intro a c hc _; exact hc
  | cons x xs ih =>
    intro a c hc h
    exact ih (min a x) c (le_min hc (h x (List.mem_cons_self _ _)))
      (fun y hy => h y (List.mem_cons_of_mem _ hy))

lemma cumprodFrom_pos (l : List ℚ) : ∀ a : ℚ, 0 < a → (∀ x ∈ l, 0 < x) →
    ∀ y ∈ cumprodFrom a l, 0 < y := by
  induction l with
  | nil => intro a _ _ y hy; cases hy
  | cons x xs ih =>
    intro a ha h y hy
    have hax : 0 < a * x := mul_pos ha (h x (List.mem_cons_self _ _))
    rcases List.mem_cons.1 hy with rfl | hmem
    · exact hax
    · exact ih (a * x) hax (fun z hz => h z (List.mem_cons_of_mem _ hz)) y hmem

lemma ddFrom_cells (e : List ℚ) : ∀ m : ℚ, 0 < m → (∀ x ∈ e, 0 < x) →
    ∀ d ∈ List.zipWith ddCell e (cummaxFrom m e), ∃ q, d = some q ∧ q ≤ 0 := by
  induction e with
  | nil => intro m _ _ d hd; cases hd
  | cons x xs ih =>
    intro m hm hpos d hd
    have hx : 0 < x := hpos x (List.mem_cons_self _ _)
    have hmx : 0 < max m x := lt_max_of_lt_right hx
    rw [cummaxFrom, List.zipWith_cons_cons] at hd
    rcases List.mem_cons.1 hd with rfl | hmem
    · refine ⟨x / max m x - 1, ?_, ?_⟩
      · rw [ddCell, if_neg (ne_of_gt hmx)]
      · have hle : x / max m x ≤ 1 := (div_le_one hmx).2 (le_max_right m x)
        linarith
    · exact ih (max m x) hmx (fun z hz => hpos z (List.mem_cons_of_mem _ hz)) d hmem

lemma ddFrom_nonneg_iff (e : List ℚ) : ∀ m : ℚ, 0 < m → (∀ x ∈ e, 0 < x) →
    ((∀ d ∈ List.zipWith ddCell e (cummaxFrom m e), ∀ q : ℚ, d = some q → 0 ≤ q)
      ↔ List.Chain (· ≤ ·) m e) := by
  induction e with
  | nil =>
    intro m _ _
    constructor
    · intro _; exact List.Chain.nil
    · intro _ d hd; cases hd
  | cons x xs ih =>
    intro m hm hpos
    have hx : 0 < x := hpos x (List.mem_cons_self _ _)
    have hmx : 0 < max m x := lt_max_of_lt_right hx
    have hhead : ddCell x (max m x) = some (x / max m x - 1) := by
      rw [ddCell, if_neg (ne_of_gt hmx)]
    have hposxs : ∀ z ∈ xs, 0 < z := fun z hz => hpos z (List.mem_cons_of_mem _ hz)
    rw [cummaxFrom, List.zipWith_cons_cons, List.chain_cons]
    constructor
    · intro h
      have h1 : 0 ≤ x / max m x - 1 :=
        h (ddCell x (max m x)) (List.mem_cons_self _ _) _ hhead
      have h2 : max m x ≤ x := by
        have hle : 1 ≤ x / max m x := by linarith
        exact (one_le_div hmx).1 hle
      have hmlex : m ≤ x := le_trans (le_max_left m x) h2
      have hmaxeq : max m x = x := max_eq_right hmlex
      refine ⟨hmlex, ?_⟩
      rw [hmaxeq] at h
      exact (ih x hx hposxs).1
        (fun d hd q hq => h d (List.mem_cons_of_mem _ hd) q hq)
    · intro h d hd q hq
      have hmaxeq : max m x = x := max_eq_right h.1
      rcases List.mem_cons.1 hd with rfl | hmem
      · rw [hhead] at hq
        injection hq with hq2
        rw [← hq2, hmaxeq, div_self (ne_of_gt hx)]
        norm_num
      · rw [hmaxeq] at hmem
        exact (ih x hx hposxs).2 h.2 d hmem q hq

/-- The two MaxDD facts for a nonempty cleaned series with every return
above -100 percent: MaxDD is defined and nonpositive, and it is zero
exactly when the equity curve is non-decreasing. -/
lemma maxDD_spec (r : List ℚ) (hr : r ≠ []) (hpos : ∀ x ∈ r, 0 < 1 + x) :
    (∃ m, maxDD r = some m ∧ m ≤ 0) ∧
    (maxDD r = some 0 ↔ nondecreasing (equityCurve r)) := by
  cases r with
  | nil => exact absurd rfl hr
  | cons x xs =>
    have hx : (0 : ℚ) < 1 + x := hpos x (List.mem_cons_self _ _)
    set e0 : ℚ := 1 * (1 + x) with he0def
    set es : List ℚ := cumprodFrom e0 (xs.map (fun y => 1 + y)) with hesdef
    have he0 : 0 < e0 := by rw [he0def, one_mul]; exact hx
    have heq : equityCurve (x :: xs) = e0 :: es := rfl
    have hes : ∀ y ∈ es, 0 < y := by
      rw [hesdef]
      refine cumprodFrom_pos _ e0 he0 ?_
      intro z hz
      rcases List.mem_map.1 hz with ⟨w, hw, rfl⟩
      exact hpos w (List.mem_cons_of_mem _ hw)
    have hddh : ddCell e0 e0 = some 0 := by
      rw [ddCell, if_neg (ne_of_gt he0), div_self (ne_of_gt he0)]
      norm_num
    set tail := List.zipWith ddCell es (cummaxFrom e0 es) with htaildef
    have hdd0 : drawdowns (equityCurve (x :: xs)) = ddCell e0 e0 :: tail := by
      rw [heq]
      rfl
    have hdd : drawdowns (equityCurve (x :: xs)) = some 0 :: tail := by
      rw [hdd0, hddh]
    set qs := tail.filterMap id with hqsdef
    have hfm : (some (0 : ℚ) :: tail).filterMap id = 0 :: qs := by
      rw [hqsdef]
      simp
    have hmdd : maxDD (x :: xs) = some (qs.foldl min 0) := by
      rw [maxDD, hdd, minSkipna, hfm]
    have htail := ddFrom_cells es e0 he0 hes
    have hqs_le : ∀ q ∈ qs, q ≤ 0 := by
      intro q hq
      rw [hqsdef] at hq
      rcases List.mem_filterMap.1 hq with ⟨d, hd, hid⟩
      rcases htail d hd with ⟨q2, hq2, hle⟩
      rw [hq2] at hid
      injection hid with hid2
      rw [← hid2]
      exact hle
    have hchain := ddFrom_nonneg_iff es e0 he0 hes
    constructor
    · exact ⟨qs.foldl min 0, hmdd, foldl_min_le_init qs 0⟩
    · rw [hmdd]
      constructor
      · intro h
        injection h with h2
        have hcells : ∀ d ∈ tail, ∀ q : ℚ, d = some q → 0 ≤ q := by
          intro d hd q hq
          have hqmem : q ∈ qs := by
            rw [hqsdef]
            exact List.mem_filterMap.2 ⟨d, hd, by rw [hq]; rfl⟩
          have := foldl_min_le_mem qs 0 q hqmem
          rw [h2] at this
          exact this
        rw [nondecreasing, heq]
        exact hchain.1 hcells
      · intro h
        have hchn : List.Chain (fun a b => a ≤ b) e0 es := by
          rw [nondecreasing, heq] at h
          exact h
        have hcells := hchain.2 hchn
        have hq0 : ∀ q ∈ qs, 0 ≤ q := by
          intro q hq
          rw [hqsdef] at hq
          rcases List.mem_filterMap.1 hq with ⟨d, hd, hid⟩
          exact hcells d hd q hid
        have hle := foldl_min_le_init qs 0
        have hge := le_foldl_min qs 0 0 (le_refl 0) hq0
        rw [le_antisymm hle hge]

/-- C6 counterexample: the claim fails on series with returns at or below
-100 percent.  On [-2, 1/2] the equity curve [-1, -3/2] is strictly
decreasing and yet MaxDD = 0 (the negative peak flips the division), and
on [-1] the equity hits 0, so MaxDD is NaN and not a number that is
less than or equal to 0. -/
theorem C6_counterexample :
    (compute_perf_stats [some (-2), some (1/2)] 252).maxdd = some 0 ∧
    ¬ nondecreasing (equityCurve (dropna [some (-2), some (1/2)])) ∧
    (compute_perf_stats [some (-1)] 252).maxdd = none := by
  refine ⟨?_, ?_, ?_⟩
  · rw [perf_maxdd, if_neg (by simp [dropna])]
    have h1 : dropna [some (-2), some (1/2)] = [-2, 1/2] := by simp [dropna]
    rw [h1]
    have h2 : equityCurve [-2, 1/2] = [-1, -3/2] := by
      rw [equityCurve]
      norm_num [cumprodFrom]
    have h3 : runningPeak [-1, -3/2] = [-1, -1] := by
      rw [runningPeak, cummaxFrom, cummaxFrom]
      norm_num
    rw [maxDD, h2, drawdowns, h3]
    have h4 : ddCell (-1) (-1) = some 0 := by
      rw [ddCell, if_neg (by norm_num)]
      norm_num
    have h5 : ddCell (-3/2) (-1) = some (1/2) := by
      rw [ddCell, if_neg (by norm_num)]
      norm_num
    rw [List.zipWith_cons_cons, List.zipWith_cons_cons, List.zipWith_nil_right, h4, h5,
      minSkipna]
    have h6 : List.filterMap id [some (0:ℚ), some (1/2)] = [0, 1/2] := by simp
    rw [h6]
    show some (List.foldl min 0 [1/2]) = some 0
    rw [List.foldl_cons, List.foldl_nil]
    norm_num [min_def]
  · have h1 : dropna [some (-2), some (1/2)] = [-2, 1/2] := by simp [dropna]
    have h2 : equityCurve [-2, 1/2] = [-1, -3/2] := by
      rw [equityCurve]
      norm_num [cumprodFrom]
    rw [h1, h2, nondecreasing]
    rw [List.chain'_cons]
    intro hcontra
    have := hcontra.1
    norm_num at this
  · rw [perf_maxdd, if_neg (by simp [dropna])]
    have h1 : dropna [some (-1)] = [-1] := by simp [dropna]
    rw [h1]
    have h2 : equityCurve [-1] = [0] := by
      rw [equityCurve]
      norm_num [cumprodFrom]
    rw [maxDD, h2, drawdowns, runningPeak]
    have h4 : ddCell 0 0 = none := by rw [ddCell, if_pos rfl]
    rw [cummaxFrom, List.zipWith_cons_cons, List.zipWith_nil_right, h4, minSkipna]
    simp

/-- C6 (amended): for every return series in which each non-missing
return exceeds -1 (equity stays positive), MaxDD is a defined number
that is at most 0, and MaxDD = 0 exactly when the equity curve is
non-decreasing.  Without that restriction a -100 percent return makes
MaxDD NaN and a return below -100 percent can give MaxDD = 0 on a
decreasing equity curve. -/
theorem C6_amended (returns : List (Option ℚ)) (freq : ℕ)
    (h : ∀ x ∈ dropna returns, 0 < 1 + x) :
    (∃ m, (compute_perf_stats returns freq).maxdd = some m ∧ m ≤ 0) ∧
    ((compute_perf_stats returns freq).maxdd = some 0 ↔
      nondecreasing (equityCurve (dropna returns))) := by
  rw [perf_maxdd]
  by_cases hr : dropna returns = []
  · rw [if_pos hr, hr]
    refine ⟨⟨0, rfl, le_refl 0⟩, ?_⟩
    constructor
    · intro _
      rw [nondecreasing, equityCurve]
      simp [cumprodFrom]
    · intro _
      rfl
  · rw [if_neg hr]
    exact maxDD_spec (dropna returns) hr h

/-- C6 witness: on the series [1/2, -1/4] (both returns above -1) the
amended equivalence between MaxDD = 0 and a non-decreasing equity curve
holds. -/
theorem C6_witness :
    ((compute_perf_stats [some (1/2), some (-1/4)] 252).maxdd = some 0) ↔
      nondecreasing (equityCurve (dropna [some (1/2), some (-1/4)])) :=
  (C6_amended [some (1/2), some (-1/4)] 252 (by norm_num [dropna])).2

/-- C7 counterexample: on the all-zero series of length one the sample
standard deviation (ddof = 1) is NaN, so Sharpe is NaN rather than the
claimed 0. -/
theorem C7_counterexample :
    (compute_perf_stats [some 0] 252).sharpe ≠ some 0 := by
  rw [perf_sharpe, if_neg (by simp [dropna])]
  have h1 : dropna [some 0] = [0] := by simp [dropna]
  rw [h1, sharpeStat, if_neg (by norm_num)]
  simp

lemma dropna_all_zero (returns : List (Option ℚ)) (h : ∀ x ∈ returns, x = some 0) :
    ∀ y ∈ dropna returns, y = (0 : ℚ) := by
  intro y hy
  rcases List.mem_filterMap.1 hy with ⟨o, ho, hid⟩
  rw [h o ho] at hid
  injection hid with h2
  exact h2.symm

lemma cumprodFrom_const_one (l : List ℚ) : ∀ a : ℚ, (∀ x ∈ l, x = 1) →
    cumprodFrom a l = List.replicate l.length a := by
  induction l with
  | nil => intro a _; rfl
  | cons x xs ih =>
    intro a h
    have hx : x = 1 := h x (List.mem_cons_self _ _)
    rw [cumprodFrom, hx, mul_one, List.length_cons, List.replicate_succ]
    rw [ih a (fun z hz => h z (List.mem_cons_of_mem _ hz))]

lemma getLastD_replicate (a d : ℚ) : ∀ n : ℕ, 0 < n →
    (List.replicate n a).getLastD d = a := by
  intro n hn
  induction n with
  | zero => cases hn
  | succ m ih =>
    rw [List.replicate_succ]
    cases hm : m with
    | zero => rfl
    | succ k =>
      rw [hm] at ih
      have := ih (Nat.succ_pos k)
      rw [List.replicate_succ] at this ⊢
      simpa [List.getLastD_cons] using this

lemma chain_le_replicate (a : ℚ) : ∀ n : ℕ, List.Chain' (fun x y : ℚ => x ≤ y)
    (List.replicate n a) := by
  intro n
  induction n with
  | zero => exact List.chain'_nil
  | succ m ih =>
    rw [List.replicate_succ]
    refine List.Chain'.cons' ih ?_
    intro y hy
    cases m with
    | zero => cases hy
    | succ k =>
      rw [List.replicate_succ, List.head?_cons, Option.mem_some_iff] at hy
      rw [← hy]

/-- The equity curve of an all-zero return series is flat at 1. -/
lemma equityCurve_zero (r : List ℚ) (h : ∀ y ∈ r, y = (0 : ℚ)) :
    equityCurve r = List.replicate r.length 1 := by
  rw [equityCurve]
  have hlen : (r.map (fun x => 1 + x)).length = r.length := List.length_map _ _
  rw [← hlen]
  refine cumprodFrom_const_one _ 1 ?_
  intro z hz
  rcases List.mem_map.1 hz with ⟨w, hw, rfl⟩
  rw [h w hw, add_zero]

/-- C7 (amended): the analyzer returns CAGR = 0, Sharpe = 0 and MaxDD = 0
on every all-zero return series with at least two observations (a single
observation makes Sharpe NaN because the ddof = 1 sample standard
deviation is undefined), and it returns the same neutral zeroed result
on every series that is empty after dropping missing values. -/
theorem C7_amended (returns : List (Option ℚ)) (freq : ℕ) (hfreq : 0 < freq) :
    ((∀ x ∈ returns, x = some 0) → 2 ≤ (dropna returns).length →
      compute_perf_stats returns freq = ⟨some 0, some 0, some 0⟩) ∧
    (dropna returns = [] →
      compute_perf_stats returns freq = ⟨some 0, some 0, some 0⟩) := by
  constructor
  · intro hz hlen
    have hr0 : ∀ y ∈ dropna returns, y = (0 : ℚ) := dropna_all_zero returns hz
    have hne : dropna returns ≠ [] := by
      intro hceq
      rw [hceq] at hlen
      cases hlen
    set r := dropna returns with hrdef
    have heqr : equityCurve r = List.replicate r.length 1 := equityCurve_zero r hr0
    have hcagr : cagrStat r freq = some 0 := by
      have hyears : (0 : ℚ) < (r.length : ℚ) / (freq : ℚ) := by
        apply div_pos
        · exact_mod_cast lt_of_lt_of_le (by norm_num) hlen
        · exact_mod_cast hfreq
      have hlast : equityLast r = 1 := by
        rw [equityLast, heqr]
        exact getLastD_replicate 1 0 r.length (lt_of_lt_of_le (by norm_num) hlen)
      rw [cagrStat]
      simp only [hfreq, if_true, hyears, hlast]
      norm_num [Real.one_rpow]
    have hsharpe : sharpeStat r freq = some 0 := by
      have hmean : meanQ r = 0 := by
        rw [meanQ, List.sum_eq_zero hr0, zero_div]
      rw [sharpeStat, if_pos hlen, hmean]
      norm_num
    have hmdd : maxDD r = some 0 := by
      have hpos : ∀ x ∈ r, 0 < 1 + x := by
        intro x hx
        rw [hr0 x hx]
        norm_num
      refine (maxDD_spec r hne hpos).2.2 ?_
      rw [nondecreasing, heqr]
      exact chain_le_replicate 1 r.length
    rw [compute_perf_stats]
    simp only [← hrdef, hne, if_false]
    rw [hcagr, hsharpe, hmdd]
  · intro he
    rw [compute_perf_stats]
    simp only [he]
    rfl

/-- C7 witness: the all-zero series of length two yields the zeroed
statistics, and so does a series that is empty after dropna. -/
theorem C7_witness :
    compute_perf_stats [some 0, some 0] 252 = ⟨some 0, some 0, some 0⟩ ∧
    compute_perf_stats [none] 252 = ⟨some 0, some 0, some 0⟩ :=
  ⟨(C7_amended [some 0, some 0] 252 (by norm_num)).1 (by decide) (by decide),
   (C7_amended [none] 252 (by norm_num)).2 (by decide)⟩

end MLF
